import Mathlib

/-!
Verification of the `shard-hash` library: a deterministic shard-ID
permutation generator.  `ShardIterator` consumes a 64-bit hash state, a
total position count and a requested size, and lazily emits distinct shard
indices via mixed-radix decomposition plus upward collision displacement.
`ShardHasher` is the thin adapter bundling a hash accumulator with the
shard count.  Machine integers (`u64`) are modelled as `Nat`; all
operations performed on reachable states stay within the `u64` range, so
the `Nat` semantics coincides with the source's.
-/

namespace ShardHash

/-- Upper bound used as a termination measure for the collision scan:
one more than the maximum of the list (0 for the empty list). -/
def listBound (l : List Nat) : Nat :=
  l.foldr (fun v acc => max (v + 1) acc) 0

/-- The collision-resolution scan of `ShardIterator::next`: starting from
`ret`, increment by 1 (no wraparound) while the value is already in
`visited`, mirroring `while self.visited.contains(&ret) { ret += 1; }`. -/
def nextAvail (visited : List Nat) (ret : Nat) : Nat :=
  if ret ∈ visited then nextAvail visited (ret + 1) else ret
termination_by listBound visited - ret
decreasing_by
  have hb : ∀ l : List Nat, ret ∈ l → ret < listBound l := by
    intro l hl
    induction l with
    | nil => cases hl
    | cons a t ih =>
      rcases List.mem_cons.mp hl with heq | hl'
      · subst heq
        exact Nat.lt_of_lt_of_le (Nat.lt_succ_self ret) (Nat.le_max_left _ _)
      · exact Nat.lt_of_lt_of_le (ih hl') (Nat.le_max_right _ _)
  have := hb visited (by assumption)
  omega

/-- State of `ShardIterator` (fields as in the Rust struct; `visited` is
the `Vec` of already-emitted indices, pushed at the back). -/
structure ShardIterator where
  state : Nat
  pos : Nat
  min : Nat
  visited : List Nat
deriving Repr, DecidableEq

/-- `ShardIterator::new(state, pos, size)`: sets `min = pos - size`.
Defined for `size ≤ pos`; the checked constructor is `new?`. -/
def ShardIterator.new (state pos size : Nat) : ShardIterator :=
  { state := state, pos := pos, min := pos - size, visited := [] }

/-- `ShardIterator::new` with the debug-build overflow check made
explicit: `pos - size` on `u64` panics when `size > pos`, which we model
as `none`; otherwise construction succeeds unconditionally. -/
def ShardIterator.new? (state pos size : Nat) : Option ShardIterator :=
  if size ≤ pos then some (ShardIterator.new state pos size) else none

/-- `ShardIterator::next(&mut self)`: returns the emitted item (or `none`
when exhausted) together with the updated iterator state.  On the `none`
branch the state is untouched. -/
def ShardIterator.next (it : ShardIterator) : Option Nat × ShardIterator :=
  if it.pos = it.min then (none, it)
  else
    let ret := it.state % it.pos
    let state' := it.state / it.pos
    let pos' := it.pos - 1
    let emitted := nextAvail it.visited ret
    (some emitted,
      { state := state', pos := pos', min := it.min,
        visited := it.visited ++ [emitted] })

/-- Drive the iterator for up to `n` calls to `next`, collecting the
emitted values (stopping early at the first `none`). -/
def ShardIterator.take (it : ShardIterator) : Nat → List Nat
  | 0 => []
  | n + 1 =>
    match it.next with
    | (some v, it') => v :: it'.take n
    | (none, _) => []

/-- Apply `next` `n` times, keeping only the iterator state. -/
def ShardIterator.steps (it : ShardIterator) : Nat → ShardIterator
  | 0 => it
  | n + 1 => (it.next).2.steps n

/-- The sequence collected from `ShardIterator::new(state, N, R)`:
`R` calls to `next` (for `R ≤ N` the iterator is exhausted afterwards,
so this is the whole collected sequence). -/
def shardSeq (state N R : Nat) : List Nat :=
  (ShardIterator.new state N R).take R

/-- `ShardHasher` (the count plus an abstract 64-bit hash accumulator
state; the wrapped `DefaultHasher` is an external collaborator, so only
its finished digest matters). -/
structure ShardHasher where
  count : Nat
  hasher : Nat
deriving Repr, DecidableEq

/-- `Hasher::finish` for `ShardHasher`: reads the accumulated digest. -/
def ShardHasher.finish (h : ShardHasher) : Nat := h.hasher

/-- `ShardHasher::new(count)`: no validation is performed on `count`; the
construction is total, which we record with an `Option` that is always
`some`. -/
def ShardHasher.new? (count : Nat) : Option ShardHasher :=
  some { count := count, hasher := 0 }

/-- `IntoIterator for ShardHasher`:
`ShardIterator::new(self.finish(), self.count, self.count)`. -/
def ShardHasher.intoIter (h : ShardHasher) : ShardIterator :=
  ShardIterator.new h.finish h.count h.count

/-- `ShardHasher::into_sized_iter(size)`:
`ShardIterator::new(self.finish(), self.count, size)`. -/
def ShardHasher.intoSizedIter (h : ShardHasher) (size : Nat) : ShardIterator :=
  ShardIterator.new h.finish h.count size

/-- Invariant of every iterator state reachable from
`ShardIterator.new state N R`, relative to the original count `N`. -/
def Inv (N : Nat) (it : ShardIterator) : Prop :=
  it.min ≤ it.pos ∧ it.visited.length + it.pos = N ∧
    it.visited.Nodup ∧ ∀ v ∈ it.visited, v < N

/-- Modelled from the spec (§4.2 step 4): starting from `candidate`, scan
upward by increments of 1, no wraparound, until a value not present in
`produced` is found. -/
def specScan (produced : List Nat) (candidate : Nat) : Nat :=
  if candidate ∈ produced then specScan produced (candidate + 1) else candidate
termination_by listBound produced - candidate
decreasing_by
  have hb : ∀ l : List Nat, candidate ∈ l → candidate < listBound l := by
    intro l hl
    induction l with
    | nil => cases hl
    | cons a t ih =>
      rcases List.mem_cons.mp hl with heq | hl'
      · subst heq
        exact Nat.lt_of_lt_of_le (Nat.lt_succ_self candidate) (Nat.le_max_left _ _)
      · exact Nat.lt_of_lt_of_le (ih hl') (Nat.le_max_right _ _)
  have := hb produced (by assumption)
  omega

/-- Modelled from the spec (§4.2 steps 2–4): one non-terminal step of the
generator, written as a pure function of `(remaining_state, pos,
produced)`.  Returns the emitted index together with the updated
`remaining_state`, `pos` and `produced`. -/
def specStep (remaining pos : Nat) (produced : List Nat) :
    Nat × Nat × Nat × List Nat :=
  let candidate := remaining % pos
  let remaining' := remaining / pos
  let pos' := pos - 1
  let emitted := specScan produced candidate
  (emitted, remaining', pos', produced ++ [emitted])

end ShardHash

namespace ShardHash

/-! ### Lemmas about the collision scan -/

theorem countP_le_split {l : List Nat} {c : Nat} (h : c ∈ l) :
    List.countP (fun x => decide (c + 1 ≤ x)) l + 1 ≤
      List.countP (fun x => decide (c ≤ x)) l := by
  induction l with
  | nil => cases h
  | cons a t ih =>
    rcases List.mem_cons.mp h with heq | h
    · subst heq
      have hmono : List.countP (fun x => decide (c + 1 ≤ x)) t ≤
          List.countP (fun x => decide (c ≤ x)) t := by
        apply List.countP_mono_left
        intro x hx hdec
        simp only [decide_eq_true_eq] at hdec ⊢
        omega
      simp only [List.countP_cons]
      simp only [decide_eq_true_eq]
      split_ifs <;> omega
    · have := ih h
      simp only [List.countP_cons]
      by_cases h1 : c + 1 ≤ a
      · have h2 : c ≤ a := by omega
        simp [h1, h2]
        omega
      · by_cases h2 : c ≤ a <;> simp [h1, h2] <;> omega

theorem nextAvail_not_mem (visited : List Nat) (c : Nat) :
    nextAvail visited c ∉ visited := by
  induction c using nextAvail.induct visited with
  | case1 c hmem ih =>
    rw [nextAvail]
    simp only [hmem, if_true]
    exact ih
  | case2 c hmem =>
    rw [nextAvail]
    simp [hmem]

theorem nextAvail_ge (visited : List Nat) (c : Nat) :
    c ≤ nextAvail visited c := by
  induction c using nextAvail.induct visited with
  | case1 c hmem ih =>
    rw [nextAvail]
    simp only [hmem, if_true]
    omega
  | case2 c hmem =>
    rw [nextAvail]
    simp [hmem]

theorem nextAvail_le (visited : List Nat) (c : Nat) :
    nextAvail visited c ≤ c + List.countP (fun x => decide (c ≤ x)) visited := by
  induction c using nextAvail.induct visited with
  | case1 c hmem ih =>
    rw [nextAvail]
    simp only [hmem, if_true]
    have hsplit := countP_le_split hmem
    omega
  | case2 c hmem =>
    rw [nextAvail]
    simp [hmem]

theorem nextAvail_lt (visited : List Nat) {c N : Nat}
    (hc : c + visited.length < N) : nextAvail visited c < N := by
  have h1 := nextAvail_le visited c
  have h2 : List.countP (fun x => decide (c ≤ x)) visited ≤ visited.length :=
    List.countP_le_length _
  omega

/-! ### The reachable-state invariant and its preservation -/

theorem inv_new (state N R : Nat) :
    Inv N (ShardIterator.new state N R) := by
  refine ⟨?_, ?_, ?_, ?_⟩ <;> simp [ShardIterator.new]

theorem next_eq_of_active {it : ShardIterator} (h : it.pos ≠ it.min) :
    it.next = (some (nextAvail it.visited (it.state % it.pos)),
      { state := it.state / it.pos, pos := it.pos - 1, min := it.min,
        visited := it.visited ++ [nextAvail it.visited (it.state % it.pos)] }) := by
  simp [ShardIterator.next, h]

theorem inv_next {N : Nat} {it : ShardIterator} (hinv : Inv N it)
    (hact : it.min < it.pos) :
    Inv N (it.next).2 ∧
      (it.next).1 = some (nextAvail it.visited (it.state % it.pos)) ∧
      (it.next).2.visited =
        it.visited ++ [nextAvail it.visited (it.state % it.pos)] ∧
      (it.next).2.pos = it.pos - 1 ∧ (it.next).2.min = it.min ∧
      nextAvail it.visited (it.state % it.pos) < N := by
  obtain ⟨h1, h2, h3, h4⟩ := hinv
  have hne : it.pos ≠ it.min := by omega
  have hposz : 0 < it.pos := by omega
  have hcand : it.state % it.pos < it.pos := Nat.mod_lt _ hposz
  have hlt : nextAvail it.visited (it.state % it.pos) < N :=
    nextAvail_lt it.visited (by omega)
  rw [next_eq_of_active hne]
  refine ⟨⟨?_, ?_, ?_, ?_⟩, rfl, rfl, rfl, rfl, hlt⟩
  · simp; omega
  · simp; omega
  · simp only [List.nodup_append, List.nodup_cons, List.not_mem_nil,
      not_false_iff, List.nodup_nil, true_and, and_true]
    refine ⟨h3, ?_⟩
    intro x hx hmem
    simp only [List.mem_singleton] at hmem
    subst hmem
    exact nextAvail_not_mem it.visited _ hx
  · intro v hv
    rcases List.mem_append.mp hv with hv | hv
    · exact h4 v hv
    · simp only [List.mem_singleton] at hv
      subst hv
      exact hlt

/-! ### Properties of `take` -/

theorem take_length : ∀ (n : Nat) (it : ShardIterator),
    n ≤ it.pos - it.min → (it.take n).length = n := by
  intro n
  induction n with
  | zero => intro it _; rfl
  | succ n ih =>
    intro it h
    have hne : it.pos ≠ it.min := by omega
    rw [ShardIterator.take, next_eq_of_active hne]
    simp only [List.length_cons]
    rw [ih]
    simp
    omega

theorem take_spec {N : Nat} : ∀ (n : Nat) (it : ShardIterator), Inv N it →
    n ≤ it.pos - it.min →
    (it.visited ++ it.take n).Nodup ∧ ∀ v ∈ it.take n, v < N := by
  intro n
  induction n with
  | zero =>
    intro it hinv _
    refine ⟨?_, by simp [ShardIterator.take]⟩
    simpa [ShardIterator.take] using hinv.2.2.1
  | succ n ih =>
    intro it hinv h
    have hact : it.min < it.pos := by
      have := hinv.1; omega
    obtain ⟨hinv', hfst, hvis, hpos, hmin, hlt⟩ := inv_next hinv hact
    have hrec := ih (it.next).2 hinv' (by omega)
    rw [ShardIterator.take]
    rcases hnext : it.next with ⟨fst, it'⟩
    rw [hnext] at hfst hvis hpos hmin hinv' hrec
    simp only at hfst hvis hpos hmin
    subst hfst
    constructor
    · have : it.visited ++ nextAvail it.visited (it.state % it.pos) :: it'.take n =
          (it.visited ++ [nextAvail it.visited (it.state % it.pos)]) ++ it'.take n := by
        simp
      rw [this, ← hvis]
      exact hrec.1
    · intro v hv
      rcases List.mem_cons.mp hv with rfl | hv
      · exact hlt
      · exact hrec.2 v hv

/-- `next` (hence `take`) does not read `min` except through the
exhaustion test: two iterators agreeing on `state`, `pos` and `visited`
produce the same first `n` outputs as long as neither is exhausted
within those `n` steps. -/
theorem take_min_indep : ∀ (n : Nat) (it₁ it₂ : ShardIterator),
    it₁.state = it₂.state → it₁.pos = it₂.pos → it₁.visited = it₂.visited →
    n ≤ it₁.pos - it₁.min → n ≤ it₂.pos - it₂.min →
    it₁.take n = it₂.take n := by
  intro n
  induction n with
  | zero => intro it₁ it₂ _ _ _ _ _; rfl
  | succ n ih =>
    intro it₁ it₂ hs hp hv h₁ h₂
    have hne₁ : it₁.pos ≠ it₁.min := by omega
    have hne₂ : it₂.pos ≠ it₂.min := by omega
    rw [ShardIterator.take, ShardIterator.take,
      next_eq_of_active hne₁, next_eq_of_active hne₂]
    simp only [hs, hp, hv]
    rw [ih]
    · simp [hs, hp, hv]
    · simp [hp]
    · simp [hs, hp, hv]
    · simp; omega
    · simp; omega

/-- Taking a prefix of the collected list is the same as driving the
iterator fewer times. -/
theorem take_take : ∀ (m : Nat) (it : ShardIterator) (n : Nat),
    List.take n (it.take m) = it.take (min n m) := by
  intro m
  induction m with
  | zero => intro it n; simp [ShardIterator.take]
  | succ m ih =>
    intro it n
    rw [ShardIterator.take]
    rcases hnext : it.next with ⟨fst, it'⟩
    cases fst with
    | none =>
      have : it.take (min n (m + 1)) = [] := by
        cases hmin : min n (m + 1) with
        | zero => rfl
        | succ k => rw [ShardIterator.take, hnext]
      simp [this]
    | some v =>
      cases n with
      | zero => rfl
      | succ n =>
        have hmin : min (n + 1) (m + 1) = (min n m) + 1 := by omega
        rw [hmin, ShardIterator.take, hnext]
        simp only [List.take_succ_cons]
        rw [ih]

/-! ### Properties of `steps` -/

theorem next_snd_pos {it : ShardIterator} (h : it.pos ≠ it.min) :
    (it.next).2.pos = it.pos - 1 ∧ (it.next).2.min = it.min := by
  rw [next_eq_of_active h]
  exact ⟨rfl, rfl⟩

theorem steps_pos_min : ∀ (n : Nat) (it : ShardIterator),
    n ≤ it.pos - it.min →
    (it.steps n).pos = it.pos - n ∧ (it.steps n).min = it.min := by
  intro n
  induction n with
  | zero => intro it _; exact ⟨rfl, rfl⟩
  | succ n ih =>
    intro it h
    have hne : it.pos ≠ it.min := by omega
    have hf := next_snd_pos hne
    rw [ShardIterator.steps]
    have hrec := ih (it.next).2 (by rw [hf.1, hf.2]; omega)
    constructor
    · rw [hrec.1, hf.1]; omega
    · rw [hrec.2, hf.2]

theorem steps_exhausted_fix : ∀ (k : Nat) (it : ShardIterator),
    it.pos = it.min → it.steps k = it := by
  intro k
  induction k with
  | zero => intro it _; rfl
  | succ k ih =>
    intro it h
    rw [ShardIterator.steps]
    have hnext : it.next = (none, it) := by
      simp [ShardIterator.next, h]
    rw [hnext]
    exact ih it h

theorem steps_add : ∀ (a : Nat) (it : ShardIterator) (b : Nat),
    it.steps (a + b) = (it.steps a).steps b := by
  intro a
  induction a with
  | zero => intro it b; rw [Nat.zero_add]; rfl
  | succ a ih =>
    intro it b
    have : a + 1 + b = (a + b) + 1 := by omega
    rw [this, ShardIterator.steps, ShardIterator.steps, ih]

/-- The spec-modelled scan agrees with the code's scan. -/
theorem specScan_eq_nextAvail (produced : List Nat) :
    ∀ c, specScan produced c = nextAvail produced c := by
  intro c
  induction c using nextAvail.induct produced with
  | case1 c hmem ih =>
    rw [specScan, nextAvail]
    simp only [hmem, if_true]
    exact ih
  | case2 c hmem =>
    rw [specScan, nextAvail]
    simp [hmem]

/-- Core properties of the collected sequence, shared by several claim
theorems below: for `R ≤ N` the sequence has length `R`, is duplicate
free and stays inside `[0, N)`. -/
theorem shardSeq_core (state N R : Nat) (h : R ≤ N) :
    (shardSeq state N R).length = R ∧ (shardSeq state N R).Nodup ∧
      ∀ v ∈ shardSeq state N R, v < N := by
  have hb : R ≤ (ShardIterator.new state N R).pos -
      (ShardIterator.new state N R).min := by
    simp [ShardIterator.new]
    omega
  have hlen := take_length R (ShardIterator.new state N R) hb
  have hspec := take_spec (N := N) R (ShardIterator.new state N R)
    (inv_new state N R) hb
  refine ⟨hlen, ?_, hspec.2⟩
  have := hspec.1
  simpa [ShardIterator.new, shardSeq] using this

/-! ### Claim theorems -/

/-- C1: for every hash state, every shard count `N ≥ 1` and every
requested size `R` with `1 ≤ R ≤ N`, the sequence emitted by
`ShardIterator::new(state, N, R)` driven by `next()` consists of exactly
`R` pairwise-distinct elements, each in `[0, N)`, and the same holds for
every partial prefix of the sequence. -/
theorem claim1_distinct_in_range (state N R : Nat) (h1 : 1 ≤ R) (h2 : R ≤ N) :
    (shardSeq state N R).length = R ∧ (shardSeq state N R).Nodup ∧
      (∀ v ∈ shardSeq state N R, v < N) ∧
      ∀ k, ((shardSeq state N R).take k).Nodup ∧
        ∀ v ∈ (shardSeq state N R).take k, v < N := by
  obtain ⟨hlen, hnodup, hmem⟩ := shardSeq_core state N R h2
  refine ⟨hlen, hnodup, hmem, fun k => ⟨?_, ?_⟩⟩
  · exact List.Nodup.sublist (List.take_sublist k _) hnodup
  · intro v hv
    exact hmem v (List.take_subset k _ hv)

theorem claim1_witness :
    (1 ≤ 3 ∧ 3 ≤ 7) ∧
      ((shardSeq 2237 7 3).length = 3 ∧ (shardSeq 2237 7 3).Nodup ∧
        (∀ v ∈ shardSeq 2237 7 3, v < 7) ∧
        ∀ k, ((shardSeq 2237 7 3).take k).Nodup ∧
          ∀ v ∈ (shardSeq 2237 7 3).take k, v < 7) :=
  ⟨by decide, claim1_distinct_in_range 2237 7 3 (by decide) (by decide)⟩

/-- C2: for every hash state, shard count `N` and requested sizes
`R2 ≤ R1 ≤ N`, the sequence for `R2` equals the first `R2` elements of
the sequence for `R1`. -/
theorem claim2_prefix_consistency (state N R1 R2 : Nat)
    (h1 : R2 ≤ R1) (h2 : R1 ≤ N) :
    shardSeq state N R2 = (shardSeq state N R1).take R2 := by
  unfold shardSeq
  rw [take_take, Nat.min_eq_left h1]
  apply take_min_indep R2 <;> simp [ShardIterator.new] <;> omega

theorem claim2_witness :
    (3 ≤ 7 ∧ 7 ≤ 7) ∧ shardSeq 2237 7 3 = (shardSeq 2237 7 7).take 3 :=
  ⟨by decide, claim2_prefix_consistency 2237 7 7 3 (by decide) (by decide)⟩

/-- C3: each non-terminal step of the generator implements exactly the
reference step definition: candidate = remaining_state mod pos, then
remaining_state := remaining_state / pos and pos := pos - 1, then an
upward no-wraparound scan from candidate over the produced set resolves
collisions, and the found value is emitted and recorded. -/
theorem claim3_next_refines_spec_step (it : ShardIterator)
    (h : it.min < it.pos) :
    (it.next).1 = some (specStep it.state it.pos it.visited).1 ∧
      (it.next).2.state = (specStep it.state it.pos it.visited).2.1 ∧
      (it.next).2.pos = (specStep it.state it.pos it.visited).2.2.1 ∧
      (it.next).2.visited = (specStep it.state it.pos it.visited).2.2.2 ∧
      (it.next).2.min = it.min := by
  have hne : it.pos ≠ it.min := by omega
  rw [next_eq_of_active hne]
  simp [specStep, specScan_eq_nextAvail]

theorem claim3_witness :
    ((ShardIterator.mk 2237 7 4 []).min < (ShardIterator.mk 2237 7 4 []).pos) ∧
      (((ShardIterator.mk 2237 7 4 []).next).1 =
          some (specStep 2237 7 []).1 ∧
        ((ShardIterator.mk 2237 7 4 []).next).2.state = (specStep 2237 7 []).2.1 ∧
        ((ShardIterator.mk 2237 7 4 []).next).2.pos = (specStep 2237 7 []).2.2.1 ∧
        ((ShardIterator.mk 2237 7 4 []).next).2.visited =
          (specStep 2237 7 []).2.2.2 ∧
        ((ShardIterator.mk 2237 7 4 []).next).2.min = 4) :=
  ⟨by decide, claim3_next_refines_spec_step (ShardIterator.mk 2237 7 4 []) (by decide)⟩

/-- C4: for every hash state and shard count `N ≥ 1`, requesting
`R = N` (or equivalently driving `ShardHasher`'s `into_iter`) yields a
permutation of `[0, N)`: every index appears exactly once. -/
theorem claim4_full_permutation (state N : Nat) (h : 1 ≤ N) :
    (shardSeq state N N).Perm (List.range N) ∧
      (ShardHasher.mk N state).intoIter.take (ShardHasher.mk N state).count =
        shardSeq state N N := by
  obtain ⟨hlen, hnodup, hmem⟩ := shardSeq_core state N N (Nat.le_refl N)
  refine ⟨?_, rfl⟩
  have hsub : (shardSeq state N N).toFinset ⊆ (List.range N).toFinset := by
    intro x hx
    rw [List.mem_toFinset] at hx ⊢
    rw [List.mem_range]
    exact hmem x hx
  have hcard : (List.range N).toFinset.card ≤ (shardSeq state N N).toFinset.card := by
    rw [List.toFinset_card_of_nodup hnodup,
      List.toFinset_card_of_nodup (List.nodup_range N), List.length_range, hlen]
  exact List.perm_of_nodup_nodup_toFinset_eq hnodup (List.nodup_range N)
    (Finset.eq_of_subset_of_card_le hsub hcard)

theorem claim4_witness :
    (1 ≤ 7) ∧
      ((shardSeq 2237 7 7).Perm (List.range 7) ∧
        (ShardHasher.mk 7 2237).intoIter.take (ShardHasher.mk 7 2237).count =
          shardSeq 2237 7 7) :=
  ⟨by decide, claim4_full_permutation 2237 7 (by decide)⟩

/-- C5: for hash state 2237 and `N = 7` the generator emits `[4]` for
`R = 1`, `[4, 1, 3]` for `R = 3` and `[4, 1, 3, 2, 5, 0, 6]` for
`R = 7`; for state 2237, `N = 5`, `R = 1` the single emitted index is 2. -/
theorem claim5_concrete_sequences :
    shardSeq 2237 7 1 = [4] ∧ shardSeq 2237 7 3 = [4, 1, 3] ∧
      shardSeq 2237 7 7 = [4, 1, 3, 2, 5, 0, 6] ∧ shardSeq 2237 5 1 = [2] := by
  refine ⟨?_, ?_, ?_, ?_⟩ <;>
    simp [shardSeq, ShardIterator.new, ShardIterator.take, ShardIterator.next,
      nextAvail]

/-- C6 counterexample: `ShardIterator::new(0, 5, 0)` has `size == 0`
(so not `1 ≤ size ≤ shard_count`), which the claim says must fail, yet
construction succeeds. -/
theorem claim6_counterexample :
    (ShardIterator.new? 0 5 0).isSome = true ∧ ¬(1 ≤ (0 : Nat)) := by
  decide

/-- C6 (amended): construction of a `ShardIterator` fails (debug-build
subtraction overflow on `pos - size`) exactly when `size > shard_count`;
it succeeds whenever `size ≤ shard_count`, including `size == 0` and the
case `shard_count == 0` with `size == 0`. -/
theorem claim6_construction_iff (state N R : Nat) :
    (ShardIterator.new? state N R).isSome = true ↔ R ≤ N := by
  by_cases h : R ≤ N <;> simp [ShardIterator.new?, h]

/-- C7: once a generator constructed with valid `(state, N, R)` has
emitted its `R` elements, it is terminal: `next()` returns `None`,
changes nothing, and every further step is a no-op. -/
theorem claim7_terminal_exhaustion (state N R : Nat) (h : R ≤ N) :
    ((ShardIterator.new state N R).steps R).next =
        (none, (ShardIterator.new state N R).steps R) ∧
      ∀ k, (ShardIterator.new state N R).steps (R + k) =
        (ShardIterator.new state N R).steps R := by
  have hb : R ≤ (ShardIterator.new state N R).pos -
      (ShardIterator.new state N R).min := by
    simp [ShardIterator.new]
    omega
  obtain ⟨hpos, hmin⟩ := steps_pos_min R (ShardIterator.new state N R) hb
  have hterm : ((ShardIterator.new state N R).steps R).pos =
      ((ShardIterator.new state N R).steps R).min := by
    rw [hpos, hmin]
    simp [ShardIterator.new]
  refine ⟨?_, fun k => ?_⟩
  · simp [ShardIterator.next, hterm]
  · rw [steps_add, steps_exhausted_fix k _ hterm]

theorem claim7_witness :
    (3 ≤ 7) ∧
      (((ShardIterator.new 2237 7 3).steps 3).next =
          (none, (ShardIterator.new 2237 7 3).steps 3) ∧
        ∀ k, (ShardIterator.new 2237 7 3).steps (3 + k) =
          (ShardIterator.new 2237 7 3).steps 3) :=
  ⟨by decide, claim7_terminal_exhaustion 2237 7 3 (by decide)⟩

/-- C8: the emitted sequence is a pure function of `(state, N, R)`: any
two generators constructed from equal inputs produce identical
sequences, with no dependence on randomness or external state. -/
theorem claim8_determinism (s₁ s₂ N₁ N₂ R₁ R₂ : Nat)
    (hs : s₁ = s₂) (hN : N₁ = N₂) (hR : R₁ = R₂) :
    shardSeq s₁ N₁ R₁ = shardSeq s₂ N₂ R₂ := by
  subst hs
  subst hN
  subst hR
  rfl

theorem claim8_witness :
    (2237 = 2237 ∧ 7 = 7 ∧ 3 = 3) ∧ shardSeq 2237 7 3 = shardSeq 2237 7 3 :=
  ⟨by decide, claim8_determinism 2237 2237 7 7 3 3 rfl rfl rfl⟩

/-- C9 counterexample: `ShardHasher::new(0)` succeeds — there is no
shard-count validation and no `ConfigurationError` in the adapter. -/
theorem claim9_counterexample : (ShardHasher.new? 0).isSome = true := by
  decide

/-- C9 (amended): `ShardHasher::new` performs no validation at all:
construction succeeds for every shard count, including 0, and the
adapter has no construction-time error condition. -/
theorem claim9_new_total (count : Nat) :
    (ShardHasher.new? count).isSome = true := rfl

/-- C10: `ShardIterator::new(state, N, 0)` succeeds for every state and
shard count (it sets `min` equal to `pos`), and the very first call to
`next()` returns `None`: a requested size of zero yields the empty
sequence rather than a failure. -/
theorem claim10_size_zero_ok (state N : Nat) :
    ShardIterator.new? state N 0 = some (ShardIterator.new state N 0) ∧
      (ShardIterator.new state N 0).min = (ShardIterator.new state N 0).pos ∧
      (ShardIterator.new state N 0).next =
        (none, ShardIterator.new state N 0) := by
  refine ⟨?_, ?_, ?_⟩
  · simp [ShardIterator.new?]
  · simp [ShardIterator.new]
  · simp [ShardIterator.next, ShardIterator.new]

end ShardHash
